import Mathlib

/-!
Shallow embedding of `src/fetchers/top-languages.js` (fetchTopLanguages) and
proofs about it.

Modelling conventions:
* JS millisecond timestamps are `ℤ`; `new Date(ms).toISOString()` is kept as
  the underlying millisecond value (claims concern counts and spacing only).
* JS strings use `String`; the only falsy string is `""`, matching `!s` /
  `s || t` on strings.
* `repo.languages?.edges` is modelled as a `List LangEdge` directly (an absent
  `languages`/`edges` collapses to `[]`, which the code treats identically).
* JS objects used as insertion-ordered string maps (`repoMap`, the fold
  accumulator, `topLangs`) are association lists `List (String × _)` where an
  update of an existing key rewrites in place and a new key is appended,
  matching `Map.set` / object-spread semantics.
* The per-period fetch result is `Except String Response`: `.error msg` models
  a thrown error caught by the `catch` block, `.ok` a resolved response.
* `Promise.all` over concurrently completing tasks is modelled by `fillSlots`:
  tasks complete in an arbitrary schedule order, each writing its result into
  its own slot, and the join reads the slots in index order.
-/

namespace TopLanguages

/-- `node { color name }` of a language edge. -/
structure LangNode where
  color : Option String
  name : String
deriving DecidableEq, Repr

/-- `edges { size node { ... } }` of `repository.languages`. -/
structure LangEdge where
  size : ℕ
  node : LangNode
deriving DecidableEq, Repr

/-- A repository record from a contributions collection. -/
structure Repo where
  name : String
  nameWithOwner : String
  edges : List LangEdge
deriving DecidableEq, Repr

/-- One item of a `...ContributionsByRepository` list: `{ repository }`,
where the repository itself may be absent. -/
structure Item where
  repository : Option Repo
deriving DecidableEq, Repr

/-- `res.data.data.user.contributionsCollection`. -/
structure Contrib where
  commitContributionsByRepository : List Item
  pullRequestContributionsByRepository : List Item
  issueContributionsByRepository : List Item
deriving DecidableEq, Repr

/-- The response body: `hasErrors` models the presence of `res.data.errors`;
`contributionsCollection` is `none` when `res.data.data?.user?.contributionsCollection`
is absent at any level. -/
structure Response where
  hasErrors : Bool
  contributionsCollection : Option Contrib
deriving DecidableEq, Repr

/-- Errors surfaced to the caller (`MissingParamError(["username"])`). -/
inductive JsError where
  | missingParam (params : List String)
deriving DecidableEq, Repr

/-- One entry of the language table: `{ name, color, size, count }`. -/
structure Lang where
  name : String
  color : Option String
  size : ℕ
  count : ℕ
deriving DecidableEq, Repr

/-! ## Period planning (source lines 105–119) -/

/-- `const oneYear = 365 * 24 * 60 * 60 * 1000;` -/
def oneYear : ℤ := 365 * 24 * 60 * 60 * 1000

/-- `const sixMonths = oneYear / 2;` (exact: `oneYear` is even). -/
def sixMonths : ℤ := oneYear / 2

/-- The `periods` list: `null` ("all time") first, then the double loop over
`years < 5`, `halfYear < 2`, skipping `years === 0 && halfYear === 0`,
pushing `now - years * oneYear - halfYear * sixMonths`. -/
def buildPeriods (now : ℤ) : List (Option ℤ) :=
  none :: (List.range 5).flatMap (fun years =>
    (List.range 2).filterMap (fun halfYear =>
      if years = 0 ∧ halfYear = 0 then
        none
      else
        some (some (now - (years : ℤ) * oneYear - (halfYear : ℤ) * sixMonths))))

/-! ## Per-period fetch processing (source lines 124–151) -/

/-- `fromDate || "all time"` (the only falsy strings are absent ones, modelled
by `none`). -/
def periodName : Option ℤ → String
  | none => "all time"
  | some t => toString t

/-- The diagnostic line written by the `catch` block. -/
def failLog (fromDate : Option ℤ) (msg : String) : String :=
  "Failed to fetch contributions for period " ++ periodName fromDate ++ ": " ++ msg

/-- The body of one period's fetch task: a thrown error is caught, logged and
turned into `[]`; a response with GraphQL `errors` or without
`user.contributionsCollection` yields `[]` (no log); otherwise the three
contribution lists are concatenated. Returns (items, emitted log lines). -/
def processPeriod (fromDate : Option ℤ) (r : Except String Response) :
    List Item × List String :=
  match r with
  | .error msg => ([], [failLog fromDate msg])
  | .ok res =>
    if res.hasErrors then ([], [])
    else
      match res.contributionsCollection with
      | none => ([], [])
      | some contrib =>
        (contrib.commitContributionsByRepository ++
          contrib.pullRequestContributionsByRepository ++
          contrib.issueContributionsByRepository, [])

/-! ## Deduplication into `repoMap` (source lines 157–168) -/

/-- `repo.nameWithOwner || repo.name`. -/
def repoKey (repo : Repo) : String :=
  if repo.nameWithOwner = "" then repo.name else repo.nameWithOwner

/-- One step of the scan: skip when the repository is absent or has no
language edges; compute the key; insert only when the key is truthy and not
already present (`Map.set` appends in insertion order). -/
def dedupStep (m : List (String × Repo)) (item : Item) : List (String × Repo) :=
  match item.repository with
  | none => m
  | some repo =>
    if repo.edges.length = 0 then m
    else
      let key := repoKey repo
      if key ≠ "" ∧ (m.find? (fun p => p.1 == key)).isNone then m ++ [(key, repo)]
      else m

/-- The `repoMap` built by the double loop over `allCollections`. -/
def dedup (items : List Item) : List (String × Repo) :=
  items.foldl dedupStep []

/-- Lookup in an insertion-ordered string map. -/
def lookupTbl (m : List (String × α)) (k : String) : Option α :=
  (m.find? (fun p => p.1 == k)).map Prod.snd

/-! ## Language aggregation (source lines 183–213) -/

/-- `{...acc, [k]: v}`: an existing key is rewritten in place, a new key is
appended. -/
def updateTbl (m : List (String × Lang)) (k : String) (v : Lang) : List (String × Lang) :=
  if (m.find? (fun p => p.1 == k)).isSome then
    m.map (fun p => if p.1 == k then (k, v) else p)
  else
    m ++ [(k, v)]

/-- One step of the language fold. The state is the accumulator object plus
the shared `repoCount` variable (mutable and outside the reduce in the
source). When `acc[prev.node.name]` exists and its `name` matches, the edge's
size is added to the stored size and `repoCount` is incremented; otherwise
`repoCount` is reset to 1 and the size starts from the edge's size. -/
def aggStep (st : List (String × Lang) × ℕ) (prev : LangEdge) :
    List (String × Lang) × ℕ :=
  let acc := st.1
  let repoCount := st.2
  match lookupTbl acc prev.node.name with
  | some entry =>
    if entry.name = prev.node.name then
      let langSize := prev.size + entry.size
      let cnt := repoCount + 1
      (updateTbl acc prev.node.name
        { name := prev.node.name, color := prev.node.color, size := langSize, count := cnt },
       cnt)
    else
      (updateTbl acc prev.node.name
        { name := prev.node.name, color := prev.node.color, size := prev.size, count := 1 }, 1)
  | none =>
    (updateTbl acc prev.node.name
      { name := prev.node.name, color := prev.node.color, size := prev.size, count := 1 }, 1)

/-- The whole fold, starting from an empty object and `repoCount = 0`. -/
def aggregate (edges : List LangEdge) : List (String × Lang) :=
  (edges.foldl aggStep ([], 0)).1

/-- `reduce((acc, curr) => curr.languages.edges.concat(acc), [])`: each
repository's edges are prepended, so the flattened list reverses repo order. -/
def flattenEdges (repos : List Repo) : List LangEdge :=
  repos.foldl (fun acc curr => curr.edges ++ acc) []

/-! ## Weighting and ranking (source lines 215–229) -/

/-- `size = size^size_weight * count^count_weight` (the `size` field is
overwritten with the comparison index; `count` is kept). -/
def applyWeights (size_weight count_weight : ℕ) (m : List (String × Lang)) :
    List (String × Lang) :=
  m.map (fun p => (p.1, { p.2 with size := p.2.size ^ size_weight * p.2.count ^ count_weight }))

/-- Stable insertion for descending sort by the (weighted) `size` field:
the new element goes after every element of ≥ size, matching the stable
`sort((a, b) => b.size - a.size)`. -/
def insertDesc (x : String × Lang) : List (String × Lang) → List (String × Lang)
  | [] => [x]
  | y :: ys => if y.2.size < x.2.size then x :: y :: ys else y :: insertDesc x ys

/-- Stable descending sort by `size`, processing entries in pre-sort
iteration order. -/
def sortDesc (m : List (String × Lang)) : List (String × Lang) :=
  m.foldl (fun acc x => insertDesc x acc) []

/-- Lines 170–229: exclusion filter on `repo.name` against the union of the
caller's list and the process-wide list, the defensive non-empty-edges filter,
flatten, fold, weighting, and the final stable sort. -/
def rankFromRepos (exclude_repo excludeRepositories : List String)
    (size_weight count_weight : ℕ) (repoNodes : List Repo) : List (String × Lang) :=
  sortDesc (applyWeights size_weight count_weight (aggregate (flattenEdges
    ((repoNodes.filter
        (fun repo => !((exclude_repo ++ excludeRepositories).contains repo.name))).filter
      (fun node => 0 < node.edges.length)))))

/-- Dedup then rank: everything after the fetches are joined. -/
def rankItems (exclude_repo excludeRepositories : List String)
    (size_weight count_weight : ℕ) (items : List Item) : List (String × Lang) :=
  rankFromRepos exclude_repo excludeRepositories size_weight count_weight
    ((dedup items).map Prod.snd)

/-! ## The full operation (source lines 93–230) -/

/-- `fetchTopLanguages`, with the upstream per-period fetch outcomes passed
in positionally (one `Except` per period, tasks joined in submission order as
`Promise.all` does). Returns the ordered language mapping plus the log lines,
or the `MissingParamError`. -/
def fetchTopLanguages (now : ℤ) (username : String) (exclude_repo : List String)
    (size_weight count_weight : ℕ) (excludeRepositories : List String)
    (upstream : List (Except String Response)) :
    Except JsError (List (String × Lang) × List String) :=
  if username = "" then .error (.missingParam ["username"])
  else
    let periods := buildPeriods now
    let results := (periods.zip upstream).map (fun pr => processPeriod pr.1 pr.2)
    let items := (results.map Prod.fst).flatten
    let logs := (results.map Prod.snd).flatten
    .ok (rankItems exclude_repo excludeRepositories size_weight count_weight items, logs)

/-! ## Concurrency model: `Promise.all` with completing tasks -/

/-- Tasks complete one at a time in schedule order; a completing task writes
its result into its own slot. -/
def fillSlots (tasks : List α) : List ℕ → List (Option α) → List (Option α)
  | [], slots => slots
  | i :: rest, slots =>
    fillSlots tasks rest
      (match tasks[i]? with
       | some v => slots.set i (some v)
       | none => slots)

/-- `Promise.all`: wait for a completion schedule to run, then read the slots
in task-submission order. -/
def joinAll (tasks : List α) (sched : List ℕ) : List α :=
  (fillSlots tasks sched (List.replicate tasks.length none)).filterMap id

/-- `fetchTopLanguages` run under an explicit completion schedule for the
per-period tasks. -/
def fetchTopLanguagesSched (now : ℤ) (username : String) (exclude_repo : List String)
    (size_weight count_weight : ℕ) (excludeRepositories : List String)
    (upstream : List (Except String Response)) (sched : List ℕ) :
    Except JsError (List (String × Lang) × List String) :=
  if username = "" then .error (.missingParam ["username"])
  else
    let periods := buildPeriods now
    let tasks := (periods.zip upstream).map (fun pr => processPeriod pr.1 pr.2)
    let results := joinAll tasks sched
    let items := (results.map Prod.fst).flatten
    let logs := (results.map Prod.snd).flatten
    .ok (rankItems exclude_repo excludeRepositories size_weight count_weight items, logs)

/-! ## Specification-side definitions used by the theorems -/

/-- Items eligible for insertion by the source scan: repository present, at
least one language edge, truthy (non-empty) key. -/
def eligible (it : Item) : Option Repo :=
  match it.repository with
  | none => none
  | some repo => if repo.edges.length = 0 ∨ repoKey repo = "" then none else some repo

/-- Items satisfying only the conditions the claim lists: repository present
with at least one language edge (no condition on the key). -/
def presentWithEdges (it : Item) : Option Repo :=
  match it.repository with
  | none => none
  | some repo => if repo.edges.length = 0 then none else some repo

/-- Well-formedness of a language table: every entry's `name` equals its key,
and keys are pairwise distinct. Every table the fold builds satisfies it. -/
def WFtbl (m : List (String × Lang)) : Prop :=
  (∀ p ∈ m, p.2.name = p.1) ∧ (m.map Prod.fst).Nodup

/-- Total byte size of the edges named `langName` in an edge list. -/
def sumSizes (edges : List LangEdge) (langName : String) : ℕ :=
  ((edges.filter (fun e => e.node.name == langName)).map LangEdge.size).sum

/-- The stored size for key `k` in a language table (0 when absent). -/
def sizeAt (m : List (String × Lang)) (k : String) : ℕ :=
  match lookupTbl m k with
  | none => 0
  | some entry => entry.size

/-- Modelled from the spec's testable property for C5: the plain sum of the
byte sizes of a language's edges over a list of repositories. -/
def rawLangSize (repos : List Repo) (langName : String) : ℕ :=
  (repos.map (fun r => sumSizes r.edges langName)).sum

/-- Non-increasing (weighted) `size` along the list. -/
def SortedSizeDesc (m : List (String × Lang)) : Prop :=
  List.Pairwise (fun a b => b.2.size ≤ a.2.size) m

/-- C1 (counterexample): at `now = 0` the period list has 10 entries in total —
the all-time entry followed by 9 window starts — not the 11 (1 + 10) that the
claim requires. -/
theorem C1_counterexample :
    (buildPeriods 0).length = 10 ∧ ((buildPeriods 0).drop 1).length ≠ 10 := by
  constructor
  · rfl
  · decide

/-- C1 (amended): for every clock reading, the period list is the all-time
period (`none`) first, followed by exactly 9 additional window-start
timestamps spaced 6 months apart, at offsets of 6 months through 4.5 years
before `now`. -/
theorem C1_periods :
    ∀ now : ℤ, buildPeriods now =
      none :: (List.range 9).map (fun k => some (now - ((k : ℤ) + 1) * sixMonths)) := by
  intro now
  norm_num [buildPeriods, oneYear, sixMonths, List.range_succ, List.filterMap_cons,
    List.filterMap_nil]
  ring_nf
  norm_num

/-! ## Deduplication lemmas -/

theorem dedupStep_eligible_none {it : Item} (m : List (String × Repo))
    (h : eligible it = none) : dedupStep m it = m := by
  cases hit : it.repository with
  | none => simp [dedupStep, hit]
  | some repo =>
    simp only [eligible, hit] at h
    split at h
    · rename_i hcond
      rcases hcond with h0 | hk
      · simp [dedupStep, hit, h0]
      · by_cases h0 : repo.edges.length = 0 <;> simp [dedupStep, hit, h0, hk]
    · exact absurd h (by simp)

theorem dedupStep_eligible_some {it : Item} {repo : Repo} (m : List (String × Repo))
    (h : eligible it = some repo) :
    dedupStep m it =
      if (m.find? (fun p => p.1 == repoKey repo)).isNone then m ++ [(repoKey repo, repo)]
      else m := by
  cases hit : it.repository with
  | none => simp [eligible, hit] at h
  | some repo' =>
    simp only [eligible, hit] at h
    split at h
    · exact absurd h (by simp)
    · rename_i hcond
      push_neg at hcond
      obtain ⟨h0, hk⟩ := hcond
      have hrr : repo' = repo := by simpa using h
      rw [hrr] at hit h0 hk
      simp only [dedupStep, hit, if_neg h0]
      by_cases hfind : (m.find? (fun p => p.1 == repoKey repo)).isNone
      · rw [if_pos hfind, if_pos ⟨hk, hfind⟩]
      · rw [if_neg hfind, if_neg (by simp [hfind])]

/-- Lookup after the dedup scan: a key already in the accumulator keeps its
record; otherwise the first eligible item with that key wins. -/
theorem lookup_foldl_dedupStep :
    ∀ (items : List Item) (m : List (String × Repo)) (k : String),
      lookupTbl (items.foldl dedupStep m) k =
        (lookupTbl m k).or
          ((items.filterMap eligible).find? (fun r => repoKey r == k)) := by
  intro items
  induction items with
  | nil => intro m k; simp
  | cons it items ih =>
    intro m k
    rw [List.foldl_cons]
    cases heli : eligible it with
    | none =>
      rw [dedupStep_eligible_none m heli, ih, List.filterMap_cons_none heli]
    | some repo =>
      rw [dedupStep_eligible_some m heli, List.filterMap_cons_some heli]
      by_cases hfind : (m.find? (fun p => p.1 == repoKey repo)).isNone
      · rw [if_pos hfind, ih]
        by_cases hkk : repoKey repo = k
        · subst hkk
          have hmk : lookupTbl m (repoKey repo) = none := by
            simp only [lookupTbl]
            rw [Option.isNone_iff_eq_none] at hfind
            rw [hfind]
            rfl
          rw [hmk]
          simp only [lookupTbl, List.find?_append, Option.none_or]
          rw [Option.isNone_iff_eq_none] at hfind
          rw [hfind]
          simp
        · have h1 : (List.find? (fun p => p.1 == k) [(repoKey repo, repo)]) = none := by
            simp [hkk]
          simp only [lookupTbl, List.find?_append, h1, Option.or_none]
          rw [List.find?_cons_of_neg _ (by simp [hkk])]
      · rw [if_neg hfind, ih]
        have hsome : (lookupTbl m (repoKey repo)).isSome := by
          rw [lookupTbl, Option.isSome_map']
          rw [Option.isNone_iff_eq_none] at hfind
          exact Option.isSome_iff_ne_none.mpr hfind
        by_cases hkk : repoKey repo = k
        · subst hkk
          obtain ⟨v, hv⟩ := Option.isSome_iff_exists.mp hsome
          rw [hv]
          simp
        · rw [List.find?_cons_of_neg _ (by simp [hkk])]

/-- The keys of the dedup map are pairwise distinct. -/
theorem nodup_keys_foldl_dedupStep :
    ∀ (items : List Item) (m : List (String × Repo)),
      (m.map Prod.fst).Nodup → ((items.foldl dedupStep m).map Prod.fst).Nodup := by
  intro items
  induction items with
  | nil => intro m h; simpa using h
  | cons it items ih =>
    intro m h
    rw [List.foldl_cons]
    refine ih _ ?_
    cases heli : eligible it with
    | none => rw [dedupStep_eligible_none m heli]; exact h
    | some repo =>
      rw [dedupStep_eligible_some m heli]
      by_cases hfind : (m.find? (fun p => p.1 == repoKey repo)).isNone
      · rw [if_pos hfind]
        rw [List.map_append]
        rw [List.nodup_append]
        refine ⟨h, by simp, ?_⟩
        intro a ha
        simp only [List.map_cons, List.map_nil, List.mem_singleton]
        intro hrep
        rw [Option.isNone_iff_eq_none, List.find?_eq_none] at hfind
        obtain ⟨p, hp, hfst⟩ := List.mem_map.mp ha
        subst hrep
        exact hfind p hp (by simp [hfst])
      · rw [if_neg hfind]; exact h

/-- Membership among the keys of a string map is the same as a successful
lookup. -/
theorem mem_keys_iff_lookup_isSome (m : List (String × α)) (k : String) :
    k ∈ m.map Prod.fst ↔ (lookupTbl m k).isSome := by
  simp [lookupTbl, Option.isSome_map', List.find?_isSome, List.mem_map, beq_iff_eq]

/-- C3 (counterexample): a repository with a language edge but with empty
`name` and `nameWithOwner` satisfies every insertion condition the claim
lists (repository present, at least one edge, key not yet in the map), yet
the code never inserts it because it additionally requires a truthy key: the
map stays empty while the distinct-key count over the union (restricted to
items with a present repository and at least one edge, as the claim's scan
conditions require) is 1. -/
theorem C3_counterexample :
    dedup [⟨some ⟨"", "", [⟨100, ⟨none, "Go"⟩⟩]⟩⟩] = [] ∧
    ((([⟨some ⟨"", "", [⟨100, ⟨none, "Go"⟩⟩]⟩⟩] : List Item).filterMap
        presentWithEdges).map repoKey).toFinset.card = 1 := by
  constructor <;> rfl

/-- C3 (amended): scanning the concatenated per-period sequences in order,
a record is inserted only if its repository is present, has at least one
language edge, its key (`nameWithOwner` falling back to `name`) is non-empty,
and the key is not already in the map. Consequently the keys are pairwise
distinct, lookup of any key returns the first eligible occurrence in scan
order (later duplicates are discarded even with different edges), and the
map's size equals the number of distinct non-empty keys among items whose
repository is present with at least one language edge. -/
theorem C3_dedup :
    ∀ items : List Item,
      ((dedup items).map Prod.fst).Nodup ∧
      (∀ k, lookupTbl (dedup items) k =
        (items.filterMap eligible).find? (fun r => repoKey r == k)) ∧
      (dedup items).length = ((items.filterMap eligible).map repoKey).toFinset.card := by
  intro items
  have hnodup : ((dedup items).map Prod.fst).Nodup :=
    nodup_keys_foldl_dedupStep items [] (by simp)
  have hlookup : ∀ k, lookupTbl (dedup items) k =
      (items.filterMap eligible).find? (fun r => repoKey r == k) := by
    intro k
    have h := lookup_foldl_dedupStep items [] k
    simpa [lookupTbl] using h
  refine ⟨hnodup, hlookup, ?_⟩
  have hlen : (dedup items).length = ((dedup items).map Prod.fst).length := by simp
  rw [hlen, ← List.toFinset_card_of_nodup hnodup]
  congr 1
  apply Finset.ext
  intro a
  simp only [List.mem_toFinset]
  rw [mem_keys_iff_lookup_isSome, hlookup a]
  simp only [List.find?_isSome, List.mem_map, List.mem_filterMap, beq_iff_eq]

/-! ## C4 and C10: exclusion filtering -/

/-- C4: a repository whose `name` is in the caller's exclusion list or the
process-wide exclusion list contributes nothing: for all weights, deleting it
from the deduplicated repository list leaves the final output mapping
unchanged, wherever it sits in the list. -/
theorem C4_exclusion :
    ∀ (ex g : List String) (sw cw : ℕ) (pre post : List Repo) (r : Repo),
      r.name ∈ ex ++ g →
      rankFromRepos ex g sw cw (pre ++ r :: post) =
        rankFromRepos ex g sw cw (pre ++ post) := by
  intro ex g sw cw pre post r hmem
  have hp : ((ex ++ g).contains r.name) = true := by
    simpa using hmem
  simp only [rankFromRepos, List.filter_append, List.filter_cons, hp, Bool.not_true,
    Bool.false_eq_true, if_false]

/-- C4 witness: a concretely excluded repository is dropped. -/
theorem C4_witness :
    rankFromRepos ["app"] [] 1 0
        ([] ++ (⟨"app", "alice/app", [⟨10, ⟨none, "C"⟩⟩]⟩ : Repo) :: []) =
      rankFromRepos ["app"] [] 1 0 ([] ++ []) :=
  C4_exclusion ["app"] [] 1 0 [] [] ⟨"app", "alice/app", [⟨10, ⟨none, "C"⟩⟩]⟩
    (by simp)

/-- C10: exclusion matches only the short `name` field. Excluding an
owner-qualified string removes nothing when no repository's short `name`
equals it; excluding a short name drops every repository carrying that short
`name`, whatever its `nameWithOwner`; concretely, two same-named
repositories under different owners (distinct dedup keys) are both removed by
one short-name exclusion entry. -/
theorem C10_exclusion_short_name :
    (∀ (ex g : List String) (sw cw : ℕ) (repos : List Repo) (q : String),
      (∀ r ∈ repos, r.name ≠ q) →
      rankFromRepos (q :: ex) g sw cw repos = rankFromRepos ex g sw cw repos) ∧
    (∀ (ex g : List String) (s : String) (repos : List Repo) (r : Repo),
      r.name = s →
      r ∉ repos.filter (fun x => !(((s :: ex) ++ g).contains x.name))) ∧
    rankFromRepos ["app"] [] 1 0
      [⟨"app", "alice/app", [⟨10, ⟨none, "C"⟩⟩]⟩,
       ⟨"app", "bob/app", [⟨20, ⟨none, "D"⟩⟩]⟩] = [] := by
  refine ⟨?_, ?_, rfl⟩
  · intro ex g sw cw repos q hq
    unfold rankFromRepos
    congr 1
    congr 1
    congr 1
    congr 1
    congr 1
    apply List.filter_congr
    intro r hr
    have hrq : (r.name == q) = false := by
      simpa using hq r hr
    simp only [List.cons_append, List.contains_cons, hrq, Bool.false_or]
  · intro ex g s repos r hname hmem
    have h := (List.mem_filter.mp hmem).2
    simp only [List.cons_append, List.contains_cons] at h
    rw [hname] at h
    simp at h

/-- C10 witness: excluding the owner-qualified name removes nothing for a
repository whose short name differs from it. -/
theorem C10_witness :
    rankFromRepos ("alice/app" :: []) [] 1 0
        [⟨"app", "alice/app", [⟨10, ⟨none, "C"⟩⟩]⟩] =
      rankFromRepos [] [] 1 0 [⟨"app", "alice/app", [⟨10, ⟨none, "C"⟩⟩]⟩] :=
  C10_exclusion_short_name.1 [] [] 1 0 [⟨"app", "alice/app", [⟨10, ⟨none, "C"⟩⟩]⟩]
    "alice/app" (by simp)

/-! ## C2: missing username -/

/-- C2: with an empty/absent username the operation fails with the
missing-parameter error, without looking at any upstream data (so no network
result can influence it — nothing was fetched); with a non-empty username the
caller always receives an `ok` mapping, never an error, whatever the upstream
fetch outcomes are. -/
theorem C2_missing_username :
    (∀ now ex sw cw g upstream upstream',
      fetchTopLanguages now "" ex sw cw g upstream =
        Except.error (JsError.missingParam ["username"]) ∧
      fetchTopLanguages now "" ex sw cw g upstream =
        fetchTopLanguages now "" ex sw cw g upstream') ∧
    (∀ now u ex sw cw g upstream, u ≠ "" →
      ∃ out, fetchTopLanguages now u ex sw cw g upstream = Except.ok out) := by
  constructor
  · intro now ex sw cw g upstream upstream'
    constructor <;> simp [fetchTopLanguages]
  · intro now u ex sw cw g upstream hu
    unfold fetchTopLanguages
    rw [if_neg hu]
    exact ⟨_, rfl⟩

/-- C2 witness: a concrete non-empty username yields `ok`. -/
theorem C2_witness :
    ∃ out, fetchTopLanguages 0 "octocat" [] 1 0 [] [] = Except.ok out :=
  C2_missing_username.2 0 "octocat" [] 1 0 [] [] (by decide)

/-! ## C6: per-period failure handling -/

/-- C6 (counterexample): a period whose response carries GraphQL `errors`
(or lacks `contributionsCollection`) is replaced by an empty result but NO
diagnostic line is logged, contradicting the claim that every failed period
logs a line naming it. -/
theorem C6_counterexample :
    processPeriod (some 0) (Except.ok ⟨true, some ⟨[], [], []⟩⟩) = ([], []) ∧
    processPeriod (some 0) (Except.ok ⟨false, none⟩) = ([], []) := by
  constructor <;> rfl

/-- C6 (amended): a thrown error during a period's fetch is replaced by an
empty result together with a diagnostic line naming the period; a response
with GraphQL `errors` or without `contributionsCollection` is replaced by an
empty result silently (no log line); a well-shaped response contributes its
three collections. In every case the task returns normally, so no per-period
failure can propagate or abort the join. -/
theorem C6_period_failure :
    ∀ (fromDate : Option ℤ) (msg : String) (res : Response),
      processPeriod fromDate (Except.error msg) = ([], [failLog fromDate msg]) ∧
      (res.hasErrors = true → processPeriod fromDate (Except.ok res) = ([], [])) ∧
      (res.contributionsCollection = none →
        processPeriod fromDate (Except.ok res) = ([], [])) ∧
      (∀ contrib, res.hasErrors = false → res.contributionsCollection = some contrib →
        processPeriod fromDate (Except.ok res) =
          (contrib.commitContributionsByRepository ++
            contrib.pullRequestContributionsByRepository ++
            contrib.issueContributionsByRepository, [])) := by
  intro fromDate msg res
  obtain ⟨he, cc⟩ := res
  refine ⟨rfl, ?_, ?_, ?_⟩
  · intro h
    subst h
    rfl
  · intro h
    cases he <;> simp_all [processPeriod]
  · intro contrib h hcc
    subst h
    subst hcc
    rfl

/-- C6 witness: the amended behaviour at concrete inputs. -/
theorem C6_witness :
    processPeriod none (Except.error "boom") = ([], [failLog none "boom"]) ∧
    processPeriod none (Except.ok ⟨true, none⟩) = ([], []) :=
  ⟨(C6_period_failure none "boom" ⟨true, none⟩).1,
   (C6_period_failure none "boom" ⟨true, none⟩).2.1 rfl⟩

/-! ## Language-table lemmas -/

theorem find?_rewrite_ne (m : List (String × Lang)) (k k' : String) (v : Lang)
    (h : k' ≠ k) :
    (m.map (fun p => if p.1 == k then (k, v) else p)).find? (fun p => p.1 == k') =
      m.find? (fun p => p.1 == k') := by
  induction m with
  | nil => rfl
  | cons p ps ih =>
    rw [List.map_cons]
    by_cases hp : p.1 = k
    · rw [if_pos (by simpa using hp)]
      rw [List.find?_cons_of_neg _ (by simp only [beq_iff_eq]; exact Ne.symm h)]
      rw [List.find?_cons_of_neg _ (by simp only [beq_iff_eq, hp]; exact Ne.symm h)]
      exact ih
    · rw [if_neg (by simpa using hp)]
      by_cases hk' : p.1 = k'
      · rw [List.find?_cons_of_pos _ (by simpa using hk'),
          List.find?_cons_of_pos _ (by simpa using hk')]
      · rw [List.find?_cons_of_neg _ (by simpa using hk'),
          List.find?_cons_of_neg _ (by simpa using hk')]
        exact ih

theorem find?_rewrite_eq (m : List (String × Lang)) (k : String) (v : Lang)
    (h : (m.find? (fun p => p.1 == k)).isSome) :
    (m.map (fun p => if p.1 == k then (k, v) else p)).find? (fun p => p.1 == k) =
      some (k, v) := by
  induction m with
  | nil => simp at h
  | cons p ps ih =>
    rw [List.map_cons]
    by_cases hp : p.1 = k
    · rw [if_pos (by simpa using hp)]
      exact List.find?_cons_of_pos _ (by simp)
    · rw [if_neg (by simpa using hp)]
      rw [List.find?_cons_of_neg _ (by simpa using hp)]
      apply ih
      rw [List.find?_cons_of_neg _ (by simpa using hp)] at h
      exact h

/-- Lookup after an object-spread update: the updated key reads the new
value, every other key is untouched. -/
theorem lookup_updateTbl (m : List (String × Lang)) (k k' : String) (v : Lang) :
    lookupTbl (updateTbl m k v) k' = if k' = k then some v else lookupTbl m k' := by
  unfold updateTbl
  by_cases hpres : (m.find? (fun p => p.1 == k)).isSome
  · rw [if_pos hpres]
    by_cases hkk : k' = k
    · subst hkk
      rw [if_pos rfl]
      unfold lookupTbl
      rw [find?_rewrite_eq m k' v hpres]
      rfl
    · rw [if_neg hkk]
      unfold lookupTbl
      rw [find?_rewrite_ne m k k' v hkk]
  · rw [if_neg hpres]
    have hm : m.find? (fun p => p.1 == k) = none := by
      rwa [Option.not_isSome_iff_eq_none] at hpres
    unfold lookupTbl
    rw [List.find?_append]
    by_cases hkk : k' = k
    · subst hkk
      rw [hm, if_pos rfl]
      simp
    · rw [if_neg hkk]
      have h1 : ([(k, v)].find? (fun p => p.1 == k')) = none := by
        simp only [List.find?_singleton]
        rw [if_neg (by simp only [beq_iff_eq]; exact Ne.symm hkk)]
      rw [h1, Option.or_none]

theorem updateTbl_keys (m : List (String × Lang)) (k : String) (v : Lang) :
    (updateTbl m k v).map Prod.fst =
      if (m.find? (fun p => p.1 == k)).isSome then m.map Prod.fst
      else m.map Prod.fst ++ [k] := by
  unfold updateTbl
  by_cases hpres : (m.find? (fun p => p.1 == k)).isSome
  · rw [if_pos hpres, if_pos hpres, List.map_map]
    apply List.map_congr_left
    intro p _
    by_cases hpk : p.1 = k
    · simp [Function.comp, hpk]
    · simp [Function.comp, hpk]
  · rw [if_neg hpres, if_neg hpres, List.map_append]
    rfl

theorem WFtbl_updateTbl {m : List (String × Lang)} (hwf : WFtbl m) (k : String)
    {v : Lang} (hv : v.name = k) : WFtbl (updateTbl m k v) := by
  obtain ⟨hnames, hnodup⟩ := hwf
  constructor
  · intro p hp
    unfold updateTbl at hp
    by_cases hpres : (m.find? (fun p => p.1 == k)).isSome
    · rw [if_pos hpres] at hp
      obtain ⟨q, hq, hfq⟩ := List.mem_map.mp hp
      by_cases hqk : q.1 = k
      · rw [← hfq]
        simp only [hqk, beq_self_eq_true, if_pos]
        simpa using hv
      · rw [← hfq]
        rw [if_neg (by simp [hqk] : ¬ ((q.1 == k) = true))]
        exact hnames q hq
    · rw [if_neg hpres] at hp
      rcases List.mem_append.mp hp with h | h
      · exact hnames p h
      · simp only [List.mem_singleton] at h
        subst h
        simpa using hv
  · rw [updateTbl_keys]
    by_cases hpres : (m.find? (fun p => p.1 == k)).isSome
    · rw [if_pos hpres]
      exact hnodup
    · rw [if_neg hpres]
      have hm : m.find? (fun p => p.1 == k) = none := by
        rwa [Option.not_isSome_iff_eq_none] at hpres
      rw [List.find?_eq_none] at hm
      rw [List.nodup_append]
      refine ⟨hnodup, List.nodup_singleton k, ?_⟩
      intro a ha
      simp only [List.mem_singleton]
      intro hak
      subst hak
      obtain ⟨p, hp, hfst⟩ := List.mem_map.mp ha
      exact hm p hp (by simp [hfst])

/-- In a table with distinct keys, a member pair is what lookup returns. -/
theorem lookup_of_mem_of_nodup {m : List (String × α)} {p : String × α}
    (hmem : p ∈ m) (hnodup : (m.map Prod.fst).Nodup) :
    lookupTbl m p.1 = some p.2 := by
  induction m with
  | nil => simp at hmem
  | cons q qs ih =>
    rcases List.mem_cons.mp hmem with rfl | hmem'
    · unfold lookupTbl
      rw [List.find?_cons_of_pos _ (by simp)]
      rfl
    · have hq : q.1 ≠ p.1 := by
        intro hh
        rw [List.map_cons, List.nodup_cons] at hnodup
        exact hnodup.1 (hh ▸ List.mem_map.mpr ⟨p, hmem', rfl⟩)
      unfold lookupTbl
      rw [List.find?_cons_of_neg _ (by simpa using hq)]
      have := ih hmem' (by rw [List.map_cons, List.nodup_cons] at hnodup; exact hnodup.2)
      exact this

/-- The branch condition of the fold: when `acc[name]` exists in a
well-formed table, its stored `name` necessarily matches, so the source's
second conjunct is always true and the merge branch runs. -/
theorem aggStep_present {acc : List (String × Lang)} {cnt : ℕ} {e : LangEdge}
    (hwf : WFtbl acc) {entry : Lang}
    (h : lookupTbl acc e.node.name = some entry) :
    aggStep (acc, cnt) e =
      (updateTbl acc e.node.name
        { name := e.node.name, color := e.node.color,
          size := e.size + entry.size, count := cnt + 1 }, cnt + 1) := by
  have hname : entry.name = e.node.name := by
    unfold lookupTbl at h
    obtain ⟨p, hfp, hsnd⟩ := Option.map_eq_some'.mp h
    have hp1 : (fun q : String × Lang => q.1 == e.node.name) p = true :=
      List.find?_some (p := fun q : String × Lang => q.1 == e.node.name) hfp
    simp only [beq_iff_eq] at hp1
    have hpm : p ∈ acc := List.mem_of_find?_eq_some hfp
    rw [← hsnd, hwf.1 p hpm]
    exact hp1
  simp [aggStep, h, hname]

theorem aggStep_absent {acc : List (String × Lang)} {cnt : ℕ} {e : LangEdge}
    (h : lookupTbl acc e.node.name = none) :
    aggStep (acc, cnt) e =
      (updateTbl acc e.node.name
        { name := e.node.name, color := e.node.color, size := e.size, count := 1 }, 1) := by
  simp [aggStep, h]

theorem WFtbl_aggStep {acc : List (String × Lang)} {cnt : ℕ} {e : LangEdge}
    (hwf : WFtbl acc) : WFtbl (aggStep (acc, cnt) e).1 := by
  cases h : lookupTbl acc e.node.name with
  | none =>
    rw [aggStep_absent h]
    exact WFtbl_updateTbl hwf _ rfl
  | some entry =>
    rw [aggStep_present hwf h]
    exact WFtbl_updateTbl hwf _ rfl

theorem WFtbl_foldl_aggStep :
    ∀ (edges : List LangEdge) (acc : List (String × Lang)) (cnt : ℕ),
      WFtbl acc → WFtbl (edges.foldl aggStep (acc, cnt)).1 := by
  intro edges
  induction edges with
  | nil => intro acc cnt h; exact h
  | cons e rest ih =>
    intro acc cnt hwf
    rw [List.foldl_cons]
    exact ih (aggStep (acc, cnt) e).1 (aggStep (acc, cnt) e).2 (WFtbl_aggStep hwf)

theorem WFtbl_aggregate (edges : List LangEdge) : WFtbl (aggregate edges) :=
  WFtbl_foldl_aggStep edges [] 0 ⟨by simp, by simp⟩

theorem sumSizes_cons (e : LangEdge) (rest : List LangEdge) (L : String) :
    sumSizes (e :: rest) L = (if e.node.name = L then e.size else 0) + sumSizes rest L := by
  unfold sumSizes
  rw [List.filter_cons]
  by_cases he : e.node.name = L
  · rw [if_pos (by simpa using he), if_pos he]
    simp
  · rw [if_neg (by simpa using he), if_neg he]
    simp

/-- One fold step adds the edge's size to its language's stored size and
leaves every other language's stored size unchanged. -/
theorem sizeAt_aggStep (acc : List (String × Lang)) (cnt : ℕ) (e : LangEdge)
    (L : String) (hwf : WFtbl acc) :
    sizeAt (aggStep (acc, cnt) e).1 L =
      sizeAt acc L + (if e.node.name = L then e.size else 0) := by
  cases h : lookupTbl acc e.node.name with
  | none =>
    rw [aggStep_absent h]
    unfold sizeAt
    rw [lookup_updateTbl]
    by_cases hL : L = e.node.name
    · rw [if_pos hL, if_pos (hL.symm), hL, h]
      simp
    · rw [if_neg hL, if_neg (fun hh => hL hh.symm)]
      cases lookupTbl acc L <;> rfl
  | some entry =>
    rw [aggStep_present hwf h]
    unfold sizeAt
    rw [lookup_updateTbl]
    by_cases hL : L = e.node.name
    · rw [if_pos hL, if_pos (hL.symm), hL, h]
      simp [Nat.add_comm]
    · rw [if_neg hL, if_neg (fun hh => hL hh.symm)]
      cases lookupTbl acc L <;> rfl

/-- Folding a list of edges adds, for every language, the total size of that
language's edges to the accumulator's stored size. -/
theorem sizeAt_foldl_aggStep (L : String) :
    ∀ (edges : List LangEdge) (acc : List (String × Lang)) (cnt : ℕ),
      WFtbl acc →
      sizeAt (edges.foldl aggStep (acc, cnt)).1 L = sizeAt acc L + sumSizes edges L := by
  intro edges
  induction edges with
  | nil => intro acc cnt _; simp [sumSizes]
  | cons e rest ih =>
    intro acc cnt hwf
    rw [List.foldl_cons]
    have h0 : sizeAt (rest.foldl aggStep (aggStep (acc, cnt) e)).1 L =
        sizeAt (aggStep (acc, cnt) e).1 L + sumSizes rest L :=
      ih (aggStep (acc, cnt) e).1 (aggStep (acc, cnt) e).2 (WFtbl_aggStep hwf)
    rw [h0, sizeAt_aggStep acc cnt e L hwf, sumSizes_cons]
    omega

theorem sumSizes_append (a b : List LangEdge) (L : String) :
    sumSizes (a ++ b) L = sumSizes a L + sumSizes b L := by
  unfold sumSizes
  rw [List.filter_append, List.map_append, List.sum_append]

/-- Flattening (which prepends each repository's edges) preserves per-language
totals: the sum over the flattened list is the sum over repositories. -/
theorem sumSizes_flattenEdges (L : String) :
    ∀ (repos : List Repo) (acc : List LangEdge),
      sumSizes (repos.foldl (fun acc curr => curr.edges ++ acc) acc) L =
        sumSizes acc L + rawLangSize repos L := by
  intro repos
  induction repos with
  | nil => intro acc; simp [rawLangSize]
  | cons r rs ih =>
    intro acc
    rw [List.foldl_cons, ih, sumSizes_append]
    unfold rawLangSize
    rw [List.map_cons, List.sum_cons]
    omega

/-- Repositories with no edges contribute nothing, so the defensive
non-empty filter does not change per-language totals. -/
theorem rawLangSize_filter_nonEmpty (repos : List Repo) (L : String) :
    rawLangSize (repos.filter (fun node => 0 < node.edges.length)) L =
      rawLangSize repos L := by
  induction repos with
  | nil => rfl
  | cons r rs ih =>
    rw [List.filter_cons]
    by_cases h : 0 < r.edges.length
    · rw [if_pos (by simpa using h)]
      unfold rawLangSize at ih ⊢
      rw [List.map_cons, List.sum_cons, List.map_cons, List.sum_cons, ih]
    · rw [if_neg (by simpa using h)]
      have hnil : r.edges = [] := by
        cases hre : r.edges with
        | nil => rfl
        | cons x xs => rw [hre] at h; simp at h
      unfold rawLangSize at ih ⊢
      rw [List.map_cons, List.sum_cons, ih, hnil]
      simp [sumSizes]

theorem lang_eta_size (x : Lang) : { x with size := x.size } = x := by
  cases x
  rfl

/-- With the default weights `size_weight = 1`, `count_weight = 0` the
comparison-index rewrite is the identity. -/
theorem applyWeights_one_zero (m : List (String × Lang)) : applyWeights 1 0 m = m := by
  unfold applyWeights
  have h : ∀ p : String × Lang,
      (p.1, { p.2 with size := p.2.size ^ 1 * p.2.count ^ 0 }) = p := by
    intro p
    rw [pow_one, pow_zero, Nat.mul_one, lang_eta_size]
  calc m.map (fun p => (p.1, { p.2 with size := p.2.size ^ 1 * p.2.count ^ 0 }))
      = m.map id := List.map_congr_left (fun p _ => h p)
    _ = m := List.map_id m

/-! ## Sorting lemmas -/

theorem mem_insertDesc {x p : String × Lang} :
    ∀ l, p ∈ insertDesc x l ↔ p = x ∨ p ∈ l := by
  intro l
  induction l with
  | nil => simp [insertDesc]
  | cons y ys ih =>
    unfold insertDesc
    by_cases h : y.2.size < x.2.size
    · rw [if_pos h]
      simp only [List.mem_cons]
    · rw [if_neg h]
      simp only [List.mem_cons, ih]
      tauto

theorem insertDesc_perm (x : String × Lang) :
    ∀ l, (insertDesc x l).Perm (x :: l) := by
  intro l
  induction l with
  | nil => exact List.Perm.refl _
  | cons y ys ih =>
    unfold insertDesc
    by_cases h : y.2.size < x.2.size
    · rw [if_pos h]
    · rw [if_neg h]
      exact (ih.cons y).trans (List.Perm.swap x y ys)

theorem sortedSizeDesc_insertDesc {l : List (String × Lang)} (x : String × Lang)
    (hl : SortedSizeDesc l) : SortedSizeDesc (insertDesc x l) := by
  induction l with
  | nil => simp [insertDesc, SortedSizeDesc]
  | cons y ys ih =>
    unfold SortedSizeDesc at hl ⊢
    rw [List.pairwise_cons] at hl
    obtain ⟨hy, hys⟩ := hl
    unfold insertDesc
    by_cases h : y.2.size < x.2.size
    · rw [if_pos h, List.pairwise_cons]
      constructor
      · intro b hb
        rcases List.mem_cons.mp hb with rfl | hb'
        · exact Nat.le_of_lt h
        · exact le_trans (hy b hb') (Nat.le_of_lt h)
      · rw [List.pairwise_cons]
        exact ⟨hy, hys⟩
    · rw [if_neg h, List.pairwise_cons]
      constructor
      · intro b hb
        rcases (mem_insertDesc ys).mp hb with rfl | hb'
        · exact Nat.le_of_not_lt h
        · exact hy b hb'
      · exact ih hys

theorem sortedSizeDesc_sortDesc (m : List (String × Lang)) :
    SortedSizeDesc (sortDesc m) := by
  unfold sortDesc
  suffices h : ∀ acc, SortedSizeDesc acc →
      SortedSizeDesc (m.foldl (fun acc x => insertDesc x acc) acc) from
    h [] (by simp [SortedSizeDesc])
  induction m with
  | nil => intro acc h; exact h
  | cons x xs ih =>
    intro acc h
    rw [List.foldl_cons]
    exact ih _ (sortedSizeDesc_insertDesc x h)

theorem sortDesc_perm (m : List (String × Lang)) : (sortDesc m).Perm m := by
  unfold sortDesc
  suffices h : ∀ acc, (m.foldl (fun acc x => insertDesc x acc) acc).Perm (acc ++ m) by
    simpa using h []
  induction m with
  | nil => intro acc; simp
  | cons x xs ih =>
    intro acc
    rw [List.foldl_cons]
    refine (ih (insertDesc x acc)).trans ?_
    refine (List.Perm.append_right xs (insertDesc_perm x acc)).trans ?_
    simpa using List.perm_middle.symm

/-- Inserting into a sorted list puts the new element after every element of
equal (weighted) size: the filtered-by-size sublist gains `x` at its end. -/
theorem filter_insertDesc (x : String × Lang) (s : ℕ) :
    ∀ l, SortedSizeDesc l →
      (insertDesc x l).filter (fun p => p.2.size == s) =
        if x.2.size = s then l.filter (fun p => p.2.size == s) ++ [x]
        else l.filter (fun p => p.2.size == s) := by
  intro l
  induction l with
  | nil =>
    intro _
    by_cases hx : x.2.size = s
    · rw [if_pos hx]
      simp [insertDesc, List.filter_cons, hx]
    · rw [if_neg hx]
      simp [insertDesc, List.filter_cons, hx]
  | cons y ys ih =>
    intro hsorted
    have hsy : SortedSizeDesc ys := by
      unfold SortedSizeDesc at hsorted ⊢
      exact (List.pairwise_cons.mp hsorted).2
    unfold insertDesc
    by_cases h : y.2.size < x.2.size
    · rw [if_pos h]
      by_cases hx : x.2.size = s
      · rw [if_pos hx]
        have hnone : (y :: ys).filter (fun p => p.2.size == s) = [] := by
          rw [List.filter_eq_nil_iff]
          intro b hb
          have hble : b.2.size ≤ y.2.size := by
            rcases List.mem_cons.mp hb with rfl | hb'
            · exact Nat.le_refl _
            · exact (List.pairwise_cons.mp hsorted).1 b hb'
          have hlt : b.2.size < s := lt_of_le_of_lt hble (hx ▸ h)
          simpa using Nat.ne_of_lt hlt
        rw [hnone, List.filter_cons, if_pos (by simp [hx]), hnone]
        rfl
      · rw [if_neg hx]
        rw [List.filter_cons, if_neg (by simp [hx])]
    · rw [if_neg h]
      by_cases hx : x.2.size = s
      · rw [if_pos hx]
        rw [List.filter_cons, List.filter_cons, ih hsy, if_pos hx]
        by_cases hy : (y.2.size == s) = true
        · rw [if_pos hy, if_pos hy]
          rfl
        · rw [if_neg hy, if_neg hy]
      · rw [if_neg hx]
        rw [List.filter_cons, List.filter_cons, ih hsy, if_neg hx]

/-- Stability of the whole sort: for each size value, the entries carrying it
appear in the output exactly in their pre-sort order. -/
theorem filter_sortDesc (m : List (String × Lang)) (s : ℕ) :
    (sortDesc m).filter (fun p => p.2.size == s) = m.filter (fun p => p.2.size == s) := by
  unfold sortDesc
  suffices h : ∀ acc, SortedSizeDesc acc →
      (m.foldl (fun acc x => insertDesc x acc) acc).filter (fun p => p.2.size == s) =
        acc.filter (fun p => p.2.size == s) ++ m.filter (fun p => p.2.size == s) by
    simpa using h [] (by simp [SortedSizeDesc])
  induction m with
  | nil => intro acc _; simp
  | cons x xs ih =>
    intro acc hacc
    rw [List.foldl_cons, ih _ (sortedSizeDesc_insertDesc x hacc),
      filter_insertDesc x s acc hacc, List.filter_cons]
    by_cases hx : x.2.size = s
    · rw [if_pos hx, if_pos (by simpa using hx)]
      simp
    · rw [if_neg hx, if_neg (by simpa using hx)]

/-! ## C5, C7, C8: aggregation, the shared counter, and the ranker -/

/-- C5: with `size_weight = 1` and `count_weight = 0`, every entry of the
output mapping stores as `size` the plain sum of the byte sizes of that
language's edges over all deduplicated, non-excluded repositories, and the
output is ordered by non-increasing raw sum. -/
theorem C5_default_weights :
    ∀ (ex g : List String) (items : List Item),
      (∀ p ∈ rankItems ex g 1 0 items,
        p.2.size = rawLangSize
          (((dedup items).map Prod.snd).filter
            (fun repo => !((ex ++ g).contains repo.name))) p.1) ∧
      List.Pairwise (fun a b => b.2.size ≤ a.2.size) (rankItems ex g 1 0 items) := by
  intro ex g items
  have hout : rankItems ex g 1 0 items =
      sortDesc (aggregate (flattenEdges
        ((((dedup items).map Prod.snd).filter
            (fun repo => !((ex ++ g).contains repo.name))).filter
          (fun node => 0 < node.edges.length)))) := by
    unfold rankItems rankFromRepos
    rw [applyWeights_one_zero]
  constructor
  · intro p hp
    rw [hout] at hp
    have hp' : p ∈ aggregate (flattenEdges
        ((((dedup items).map Prod.snd).filter
            (fun repo => !((ex ++ g).contains repo.name))).filter
          (fun node => 0 < node.edges.length))) :=
      (sortDesc_perm _).mem_iff.mp hp
    have hwf := WFtbl_aggregate (flattenEdges
        ((((dedup items).map Prod.snd).filter
            (fun repo => !((ex ++ g).contains repo.name))).filter
          (fun node => 0 < node.edges.length)))
    have hlook := lookup_of_mem_of_nodup hp' hwf.2
    have hsz : sizeAt (aggregate (flattenEdges
        ((((dedup items).map Prod.snd).filter
            (fun repo => !((ex ++ g).contains repo.name))).filter
          (fun node => 0 < node.edges.length)))) p.1 = p.2.size := by
      unfold sizeAt
      rw [hlook]
    have hagg : sizeAt (aggregate (flattenEdges
        ((((dedup items).map Prod.snd).filter
            (fun repo => !((ex ++ g).contains repo.name))).filter
          (fun node => 0 < node.edges.length)))) p.1 =
        sumSizes (flattenEdges
        ((((dedup items).map Prod.snd).filter
            (fun repo => !((ex ++ g).contains repo.name))).filter
          (fun node => 0 < node.edges.length))) p.1 := by
      have h := sizeAt_foldl_aggStep p.1 (flattenEdges
        ((((dedup items).map Prod.snd).filter
            (fun repo => !((ex ++ g).contains repo.name))).filter
          (fun node => 0 < node.edges.length))) [] 0 ⟨by simp, by simp⟩
      have h0 : sizeAt ([] : List (String × Lang)) p.1 = 0 := rfl
      rw [h0, Nat.zero_add] at h
      exact h
    have hflat : sumSizes (flattenEdges
        ((((dedup items).map Prod.snd).filter
            (fun repo => !((ex ++ g).contains repo.name))).filter
          (fun node => 0 < node.edges.length))) p.1 =
        rawLangSize ((((dedup items).map Prod.snd).filter
            (fun repo => !((ex ++ g).contains repo.name))).filter
          (fun node => 0 < node.edges.length)) p.1 := by
      have h := sumSizes_flattenEdges p.1
        ((((dedup items).map Prod.snd).filter
            (fun repo => !((ex ++ g).contains repo.name))).filter
          (fun node => 0 < node.edges.length)) []
      have h0 : sumSizes [] p.1 = 0 := rfl
      rw [h0, Nat.zero_add] at h
      exact h
    have hfil := rawLangSize_filter_nonEmpty
      (((dedup items).map Prod.snd).filter
        (fun repo => !((ex ++ g).contains repo.name))) p.1
    rw [← hfil]
    exact (hsz.symm.trans (hagg.trans hflat))
  · rw [hout]
    exact sortedSizeDesc_sortDesc _

/-- C5 witness: the spec's worked example (repo A with `X:100`, repo B with
`X:50, Y:30`, no exclusions, weights (1, 0)): the output entry for `X`
carries `size = 150 = 100 + 50`, the raw sum. -/
theorem C5_witness :
    (("X", (⟨"X", none, 150, 2⟩ : Lang)) ∈
        rankItems [] [] 1 0
          [⟨some ⟨"A", "o/A", [⟨100, ⟨none, "X"⟩⟩]⟩⟩,
           ⟨some ⟨"B", "o/B", [⟨50, ⟨none, "X"⟩⟩, ⟨30, ⟨none, "Y"⟩⟩]⟩⟩]) ∧
      (150 : ℕ) = rawLangSize
        (((dedup [⟨some ⟨"A", "o/A", [⟨100, ⟨none, "X"⟩⟩]⟩⟩,
            ⟨some ⟨"B", "o/B", [⟨50, ⟨none, "X"⟩⟩, ⟨30, ⟨none, "Y"⟩⟩]⟩⟩]).map Prod.snd).filter
          (fun repo => !(([] ++ ([] : List String)).contains repo.name))) "X" :=
  ⟨by decide,
   (C5_default_weights [] []
      [⟨some ⟨"A", "o/A", [⟨100, ⟨none, "X"⟩⟩]⟩⟩,
       ⟨some ⟨"B", "o/B", [⟨50, ⟨none, "X"⟩⟩, ⟨30, ⟨none, "Y"⟩⟩]⟩⟩]).1
     ("X", ⟨"X", none, 150, 2⟩) (by decide)⟩

/-- C7: the `count` field is driven by the single `repoCount` variable shared
across all fold iterations: on a merge into an existing entry the shared
counter is incremented and stored, on a new entry it is reset to 1 and
stored — the stored count is the counter's value at that iteration, not the
entry's previously stored count plus one. Concretely, folding edges
`A, B, B, A` stores `count = 3` for `A` (its own entry held 1, but the
shared counter was 2 when the second `A` edge arrived). -/
theorem C7_shared_counter :
    ∀ (acc : List (String × Lang)) (cnt : ℕ) (e : LangEdge),
      WFtbl acc →
      (∀ entry, lookupTbl acc e.node.name = some entry →
        (aggStep (acc, cnt) e).2 = cnt + 1 ∧
        lookupTbl (aggStep (acc, cnt) e).1 e.node.name =
          some ⟨e.node.name, e.node.color, e.size + entry.size, cnt + 1⟩) ∧
      (lookupTbl acc e.node.name = none →
        (aggStep (acc, cnt) e).2 = 1 ∧
        lookupTbl (aggStep (acc, cnt) e).1 e.node.name =
          some ⟨e.node.name, e.node.color, e.size, 1⟩) ∧
      lookupTbl (aggregate
        [⟨100, ⟨none, "A"⟩⟩, ⟨50, ⟨none, "B"⟩⟩, ⟨30, ⟨none, "B"⟩⟩, ⟨1, ⟨none, "A"⟩⟩]) "A" =
        some ⟨"A", none, 101, 3⟩ := by
  intro acc cnt e hwf
  refine ⟨?_, ?_, by rfl⟩
  · intro entry h
    rw [aggStep_present hwf h]
    exact ⟨rfl, by rw [lookup_updateTbl, if_pos rfl]⟩
  · intro h
    rw [aggStep_absent h]
    exact ⟨rfl, by rw [lookup_updateTbl, if_pos rfl]⟩

/-- C7 witness: merging an edge of an already-present language with shared
counter 4 stores count 5 (= counter + 1). -/
theorem C7_witness :
    (aggStep ([("X", ⟨"X", none, 5, 1⟩)], 4) ⟨7, ⟨none, "X"⟩⟩).2 = 4 + 1 ∧
    lookupTbl (aggStep ([("X", ⟨"X", none, 5, 1⟩)], 4) ⟨7, ⟨none, "X"⟩⟩).1 "X" =
      some ⟨"X", none, 7 + 5, 4 + 1⟩ :=
  ((C7_shared_counter [("X", ⟨"X", none, 5, 1⟩)] 4 ⟨7, ⟨none, "X"⟩⟩
      ⟨by decide, by decide⟩).1) ⟨"X", none, 5, 1⟩ rfl

/-- C8: the ranked output is ordered by non-increasing computed score (the
rewritten `size` field), ties keep their pre-sort relative order (the
entries of any fixed score appear exactly in table order), the output is a
permutation of the scored table, and an empty table yields an empty
mapping. -/
theorem C8_ranker :
    ∀ m : List (String × Lang),
      List.Pairwise (fun a b => b.2.size ≤ a.2.size) (sortDesc m) ∧
      (∀ s : ℕ, (sortDesc m).filter (fun p => p.2.size == s) =
        m.filter (fun p => p.2.size == s)) ∧
      (sortDesc m).Perm m ∧
      sortDesc ([] : List (String × Lang)) = [] :=
  fun m => ⟨sortedSizeDesc_sortDesc m, fun s => filter_sortDesc m s, sortDesc_perm m, rfl⟩

/-! ## C9: determinism under completion schedules -/

theorem fillSlots_length (tasks : List α) :
    ∀ (sched : List ℕ) (slots : List (Option α)),
      (fillSlots tasks sched slots).length = slots.length := by
  intro sched
  induction sched with
  | nil => intro slots; rfl
  | cons j rest ih =>
    intro slots
    unfold fillSlots
    cases h : tasks[j]? with
    | none =>
      show (fillSlots tasks rest slots).length = slots.length
      exact ih slots
    | some v =>
      show (fillSlots tasks rest (slots.set j (some v))).length = slots.length
      rw [ih, List.length_set]

theorem fillSlots_getElem?_not_mem (tasks : List α) :
    ∀ (sched : List ℕ) (slots : List (Option α)) (i : ℕ), i ∉ sched →
      (fillSlots tasks sched slots)[i]? = slots[i]? := by
  intro sched
  induction sched with
  | nil => intro slots i _; rfl
  | cons j rest ih =>
    intro slots i hi
    have hij : i ≠ j := fun hh => hi (hh ▸ List.mem_cons_self j rest)
    have hrest : i ∉ rest := fun hh => hi (List.mem_cons_of_mem j hh)
    unfold fillSlots
    cases h : tasks[j]? with
    | none =>
      show (fillSlots tasks rest slots)[i]? = slots[i]?
      exact ih _ _ hrest
    | some v =>
      show (fillSlots tasks rest (slots.set j (some v)))[i]? = slots[i]?
      rw [ih _ _ hrest]
      exact List.getElem?_set_ne (Ne.symm hij)

theorem fillSlots_getElem?_mem (tasks : List α) :
    ∀ (sched : List ℕ) (slots : List (Option α)) (i : ℕ) (v : α),
      i ∈ sched → tasks[i]? = some v → slots.length = tasks.length →
      (fillSlots tasks sched slots)[i]? = some (some v) := by
  intro sched
  induction sched with
  | nil => intro slots i v hi _ _; simp at hi
  | cons j rest ih =>
    intro slots i v hi hv hlen
    unfold fillSlots
    by_cases hrest : i ∈ rest
    · cases h : tasks[j]? with
      | none =>
        show (fillSlots tasks rest slots)[i]? = some (some v)
        exact ih _ _ _ hrest hv hlen
      | some w =>
        show (fillSlots tasks rest (slots.set j (some w)))[i]? = some (some v)
        exact ih _ _ _ hrest hv (by rw [List.length_set]; exact hlen)
    · have hij : i = j := by
        rcases List.mem_cons.mp hi with hh | hh
        · exact hh
        · exact absurd hh hrest
      subst hij
      rw [hv]
      show (fillSlots tasks rest (slots.set i (some v)))[i]? = some (some v)
      rw [fillSlots_getElem?_not_mem tasks rest _ i hrest]
      obtain ⟨hlt', _⟩ := List.getElem?_eq_some_iff.mp hv
      exact List.getElem?_set_self (by rw [hlen]; exact hlt')

/-- `Promise.all`: under any completion schedule that completes every task,
the joined result array equals the task list in submission order. -/
theorem joinAll_eq (tasks : List α) (sched : List ℕ)
    (hperm : sched.Perm (List.range tasks.length)) :
    joinAll tasks sched = tasks := by
  unfold joinAll
  have hfill : fillSlots tasks sched (List.replicate tasks.length none) =
      tasks.map some := by
    apply List.ext_getElem?
    intro i
    by_cases hi : i < tasks.length
    · have himem : i ∈ sched := hperm.mem_iff.mpr (List.mem_range.mpr hi)
      obtain ⟨v, hv⟩ : ∃ v, tasks[i]? = some v := by
        rw [List.getElem?_eq_getElem hi]
        exact ⟨_, rfl⟩
      rw [fillSlots_getElem?_mem tasks sched _ i v himem hv (by simp)]
      rw [List.getElem?_map, hv]
      rfl
    · have h1 : (fillSlots tasks sched (List.replicate tasks.length none)).length ≤ i := by
        rw [fillSlots_length, List.length_replicate]
        omega
      rw [List.getElem?_eq_none h1, List.getElem?_eq_none (by simpa using Nat.le_of_not_lt hi)]
  rw [hfill, List.filterMap_map]
  simp

theorem fetchSched_eq (now : ℤ) (u : String) (ex : List String) (sw cw : ℕ)
    (g : List String) (upstream : List (Except String Response)) (sched : List ℕ)
    (hperm : sched.Perm (List.range ((buildPeriods now).zip upstream).length)) :
    fetchTopLanguagesSched now u ex sw cw g upstream sched =
      fetchTopLanguages now u ex sw cw g upstream := by
  unfold fetchTopLanguagesSched fetchTopLanguages
  by_cases hu : u = ""
  · rw [if_pos hu, if_pos hu]
  · rw [if_neg hu, if_neg hu]
    dsimp only
    rw [joinAll_eq _ _ (by simpa using hperm)]

/-- C9: two invocations with identical upstream per-period data and identical
parameters produce identical output mappings (entry order included), however
the concurrent per-period fetches happen to be scheduled: the join collects
results in submission order, and dedup, fold, weighting and sort are
deterministic functions of that order. -/
theorem C9_schedule_determinism :
    ∀ (now : ℤ) (u : String) (ex : List String) (sw cw : ℕ) (g : List String)
      (upstream : List (Except String Response)) (s₁ s₂ : List ℕ),
      s₁.Perm (List.range ((buildPeriods now).zip upstream).length) →
      s₂.Perm (List.range ((buildPeriods now).zip upstream).length) →
      fetchTopLanguagesSched now u ex sw cw g upstream s₁ =
        fetchTopLanguagesSched now u ex sw cw g upstream s₂ := by
  intro now u ex sw cw g upstream s₁ s₂ h₁ h₂
  rw [fetchSched_eq now u ex sw cw g upstream s₁ h₁,
    fetchSched_eq now u ex sw cw g upstream s₂ h₂]

/-- C9 witness: two upstream responses, completed in opposite orders, yield
the same result. -/
theorem C9_witness :
    fetchTopLanguagesSched 0 "octocat" [] 1 0 []
        [Except.ok ⟨false, none⟩, Except.error "boom"] [1, 0] =
      fetchTopLanguagesSched 0 "octocat" [] 1 0 []
        [Except.ok ⟨false, none⟩, Except.error "boom"] [0, 1] :=
  C9_schedule_determinism 0 "octocat" [] 1 0 []
    [Except.ok ⟨false, none⟩, Except.error "boom"] [1, 0] [0, 1]
    (by decide) (by decide)

end TopLanguages
